import Mathlib

/-!
Verification of the ferrotype type-mapping core: a shallow embedding of the
`TypeDef` intermediate representation, the renderer, the `TypeRegistry`
(deduplication, dependency collection, Kahn topological sort), the template
pattern parser of the derive crate, and the enum (variant-set) conversion.
All definitions are translated from `crates/ferrotype/src/lib.rs` and
`crates/ferrotype-derive/src/lib.rs`; definitions whose names mention `spec`
or `claimed` restate the specification's wording for comparison.
-/

namespace Ferrotype

/-- Primitive TypeScript types (`enum Primitive`). -/
inductive Primitive : Type where
  | string | number | boolean | null | undefined | void | never | any | unknown | bigInt
deriving DecidableEq

/-- Literal TypeScript types (`enum Literal`). Number literals are modelled
with an integer payload; floating-point rendering is outside the claims. -/
inductive Literal : Type where
  | str (s : String)
  | num (n : Int)
  | bool (b : Bool)
deriving DecidableEq

mutual
/-- The `TypeDef` intermediate representation (`enum TypeDef`). -/
inductive TypeDef : Type where
  | primitive (p : Primitive)
  | array (inner : TypeDef)
  | tuple (items : List TypeDef)
  | object (fields : List Field)
  | union (variants : List TypeDef)
  | intersection (types : List TypeDef)
  | record (key value : TypeDef)
  | named (name : String) (d : TypeDef)
  | ref (name : String)
  | literal (lit : Literal)
  | function (params : List Field) (returnType : TypeDef)
  | generic (base : String) (args : List TypeDef)

/-- A field in an object type (`struct Field`). -/
inductive Field : Type where
  | mk (name : String) (ty : TypeDef) (optional : Bool) (readonly : Bool)
end

def Field.name : Field → String
  | .mk n _ _ _ => n

def Field.ty : Field → TypeDef
  | .mk _ t _ _ => t

def Field.optional : Field → Bool
  | .mk _ _ o _ => o

def Field.readonly : Field → Bool
  | .mk _ _ _ r => r

/-- `Vec::join(sep)`: concatenate with a separator between elements. -/
def joinSep (sep : String) : List String → String
  | [] => ""
  | x :: xs => xs.foldl (fun acc s => acc ++ sep ++ s) x

/-- `Primitive::render`. -/
def Primitive.render : Primitive → String
  | .string => "string"
  | .number => "number"
  | .boolean => "boolean"
  | .null => "null"
  | .undefined => "undefined"
  | .void => "void"
  | .never => "never"
  | .any => "any"
  | .unknown => "unknown"
  | .bigInt => "bigint"

/-- One pass of `str::replace` with a single-character pattern. -/
def replaceChar (c : Char) (rep : List Char) : List Char → List Char
  | [] => []
  | x :: xs => (if x = c then rep else [x]) ++ replaceChar c rep xs

/-- `Literal::render`: string literals escape backslash then quote. -/
def Literal.render : Literal → String
  | .str s =>
      "\"" ++ String.mk (replaceChar '"' ['\\', '"'] (replaceChar '\\' ['\\', '\\'] s.data)) ++ "\""
  | .num n => toString n
  | .bool b => toString b

/-- `matches!(inner, TypeDef::Union(_))`. -/
def TypeDef.isUnion : TypeDef → Bool
  | .union _ => true
  | _ => false

mutual
/-- `TypeDef::render`. -/
def TypeDef.render : TypeDef → String
  | .primitive p => p.render
  | .array inner =>
      if inner.isUnion then "(" ++ inner.render ++ ")[]" else inner.render ++ "[]"
  | .tuple items => "[" ++ joinSep ", " (renderList items) ++ "]"
  | .object fields =>
      if fields.isEmpty then "\x7b\x7d"
      else "\x7b " ++ joinSep "; " (renderFields fields) ++ " \x7d"
  | .union variants => joinSep " | " (renderList variants)
  | .intersection types => joinSep " & " (renderList types)
  | .record k v => "Record<" ++ k.render ++ ", " ++ v.render ++ ">"
  | .named n _ => n
  | .ref n => n
  | .literal lit => lit.render
  | .function ps r => "(" ++ joinSep ", " (renderParams ps) ++ ") => " ++ r.render
  | .generic base args => base ++ "<" ++ joinSep ", " (renderList args) ++ ">"
termination_by structural t => t

def renderList : List TypeDef → List String
  | [] => []
  | t :: ts => t.render :: renderList ts
termination_by structural ts => ts

def renderFields : List Field → List String
  | [] => []
  | .mk n ty opt ro :: fs =>
      ((if ro then "readonly " else "") ++ n ++ (if opt then "?" else "") ++ ": " ++ ty.render)
        :: renderFields fs
termination_by structural fs => fs

def renderParams : List Field → List String
  | [] => []
  | .mk n ty _ _ :: fs => (n ++ ": " ++ ty.render) :: renderParams fs
termination_by structural fs => fs
end

/-- `TypeDef::render_declaration`. -/
def TypeDef.renderDeclaration : TypeDef → String
  | .named n d => "type " ++ n ++ " = " ++ d.render ++ ";"
  | t => t.render

/-- `impl TypeScript for Option<T>` (lines 793-797): the typedef produced for
`Option<T>` given the typedef produced for `T`. -/
def optionTypescript (t : TypeDef) : TypeDef :=
  .union [t, .primitive .null]

/-- `struct TypeRegistry`: the name-keyed map and the registration order are
modelled together as one association list in registration order; the map's
content is the list of pairs, the registration order is the list of keys. -/
abbrev Registry := List (String × TypeDef)

/-- `TypeRegistry::new`. -/
def emptyRegistry : Registry := []

/-- The `registration_order` vector (also the key set of the `types` map). -/
def regOrder (R : Registry) : List String := R.map Prod.fst

mutual
/-- `TypeRegistry::extract_named_types`: recursively extracts all `Named`
types, inserting each absent name and walking its definition. -/
def extractNamedTypes (R : Registry) : TypeDef → Registry
  | .named n d =>
      if (regOrder R).contains n then R
      else extractNamedTypes (R ++ [(n, .named n d)]) d
  | .array inner => extractNamedTypes R inner
  | .tuple items => extractNamedTypesList R items
  | .object fields => extractNamedTypesFields R fields
  | .union items => extractNamedTypesList R items
  | .intersection items => extractNamedTypesList R items
  | .record k v => extractNamedTypes (extractNamedTypes R k) v
  | .function ps r => extractNamedTypes (extractNamedTypesFields R ps) r
  | .generic _ args => extractNamedTypesList R args
  | .primitive _ => R
  | .ref _ => R
  | .literal _ => R
termination_by structural t => t

def extractNamedTypesList (R : Registry) : List TypeDef → Registry
  | [] => R
  | t :: ts => extractNamedTypesList (extractNamedTypes R t) ts
termination_by structural ts => ts

def extractNamedTypesFields (R : Registry) : List Field → Registry
  | [] => R
  | .mk _ ty _ _ :: fs => extractNamedTypesFields (extractNamedTypes R ty) fs
termination_by structural fs => fs
end

/-- `TypeRegistry::add_typedef`. -/
def addTypedef (R : Registry) (t : TypeDef) : Registry :=
  extractNamedTypes R t

mutual
/-- `TypeRegistry::collect_dependencies`: collects every registered name that
a `Ref` mentions, descending into `Named` definitions as well. -/
def collectDependencies (keys : List String) : TypeDef → List String
  | .named _ d => collectDependencies keys d
  | .ref n => if keys.contains n then [n] else []
  | .array inner => collectDependencies keys inner
  | .tuple items => collectDependenciesList keys items
  | .object fields => collectDependenciesFields keys fields
  | .union variants => collectDependenciesList keys variants
  | .intersection types => collectDependenciesList keys types
  | .record k v => collectDependencies keys k ++ collectDependencies keys v
  | .function ps r => collectDependenciesFields keys ps ++ collectDependencies keys r
  | .generic _ args => collectDependenciesList keys args
  | .primitive _ => []
  | .literal _ => []
termination_by structural t => t

def collectDependenciesList (keys : List String) : List TypeDef → List String
  | [] => []
  | t :: ts => collectDependencies keys t ++ collectDependenciesList keys ts
termination_by structural ts => ts

def collectDependenciesFields (keys : List String) : List Field → List String
  | [] => []
  | .mk _ ty _ _ :: fs => collectDependencies keys ty ++ collectDependenciesFields keys fs
termination_by structural fs => fs
end

/-- `TypeRegistry::get_dependencies` for the type stored under a name: the
`HashSet` of dependencies is modelled as a deduplicated list. -/
def deps (R : Registry) (n : String) : List String :=
  match List.lookup n R with
  | some td => (collectDependencies (regOrder R) td).dedup
  | none => []

/-- The `dependents` reverse-graph entry for a name, in registration order
(the code sorts each dependents list by registration order before use). -/
def dependents (R : Registry) (d : String) : List String :=
  (regOrder R).filter (fun n => (deps R n).contains d)

/-- The `in_degree` map as initialised before Kahn's loop. -/
def initialInDegree (R : Registry) : String → Nat :=
  fun n => (deps R n).length

/-- One dequeue step's inner loop: decrement each dependent's in-degree and
collect (in order) the dependents whose in-degree reaches zero. -/
def decrementDependents (indeg : String → Nat) : List String → (String → Nat) × List String
  | [] => (indeg, [])
  | t :: ts =>
      let d := indeg t - 1
      let p := decrementDependents (Function.update indeg t d) ts
      (p.1, (if d = 0 then [t] else []) ++ p.2)

/-- The Kahn worklist loop of `TypeRegistry::sorted_types`, with fuel. -/
def kahnRun (R : Registry) : Nat → (String → Nat) → List String → List String → List String
  | 0, _, _, result => result
  | fuel + 1, indeg, queue, result =>
      match queue with
      | [] => result
      | q :: rest =>
          let p := decrementDependents indeg (dependents R q)
          kahnRun R fuel p.1 (rest ++ p.2) (result ++ [q])

/-- The initial queue: zero in-degree names sorted by registration order. -/
def initialQueue (R : Registry) : List String :=
  (regOrder R).filter (fun n => (deps R n).length = 0)

/-- `TypeRegistry::sorted_types`: Kahn's algorithm with the registration-order
fallback when a cycle leaves types unvisited. As each loop iteration pops one
name and every name is enqueued at most once, `regOrder R` length is enough
fuel for the loop to drain its queue. -/
def sortedTypes (R : Registry) : List String :=
  let keys := regOrder R
  let res := kahnRun R keys.length (initialInDegree R) (initialQueue R) []
  if res.length < keys.length then
    res ++ keys.filter (fun n => !(res.contains n))
  else res

/-! ## Template pattern parser (`ferrotype-derive`, `parse_template_pattern`) -/

/-- The placeholder body scan: consume characters tracking nested-brace depth
until the matching close brace (not kept) or the end of the input; returns
the body and the remaining input. -/
def scanPlaceholder : List Char → Nat → List Char → List Char × List Char
  | [], _, acc => (acc, [])
  | c :: rest, depth, acc =>
      if c = '\x7b' then scanPlaceholder rest (depth + 1) (acc ++ [c])
      else if c = '\x7d' then
        if depth = 1 then (acc, rest)
        else scanPlaceholder rest (depth - 1) (acc ++ [c])
      else scanPlaceholder rest depth (acc ++ [c])

theorem scanPlaceholder_rest_length (l : List Char) :
    ∀ depth acc, (scanPlaceholder l depth acc).2.length ≤ l.length := by
  induction l with
  | nil => intro depth acc; simp [scanPlaceholder]
  | cons c rest ih =>
      intro depth acc
      simp only [scanPlaceholder]
      split
      · exact le_trans (ih _ _) (Nat.le_succ _)
      · split
        · split
          · simp [Nat.le_succ]
          · exact le_trans (ih _ _) (Nat.le_succ _)
        · exact le_trans (ih _ _) (Nat.le_succ _)

/-- The main scan loop of `parse_template_pattern`: on `"${"` flush the
accumulated literal, read the placeholder body, fail if it is empty;
afterwards push the trailing literal. -/
def parseLoop : List Char → List Char → List String → List String →
    Option (List String × List String)
  | [], current, strings, types => some (strings ++ [String.mk current], types)
  | c :: rest, current, strings, types =>
      match c, rest with
      | '$', '\x7b' :: rest2 =>
          let p := scanPlaceholder rest2 1 []
          if p.1.isEmpty then none
          else parseLoop p.2 [] (strings ++ [String.mk current]) (types ++ [String.mk p.1])
      | c, rest => parseLoop rest (current ++ [c]) strings types
termination_by l => l.length
decreasing_by
  · exact Nat.lt_succ_of_le (Nat.lt_succ_of_le (scanPlaceholder_rest_length ..)).le
  · simp

/-- `parse_template_pattern`; `none` models the `syn::Error` result. -/
def parse_template_pattern (pattern : String) : Option (List String × List String) :=
  parseLoop pattern.data [] [] []

/-- Written from the spec's words: the input contains an empty placeholder,
i.e. a `"${"` opener whose body — up to the matching close brace, tracked
with nested-brace depth, or the end of the input — is empty. Openers are the
ones the left-to-right scan meets outside any placeholder body. -/
def hasEmptyPlaceholder : List Char → Bool
  | [] => false
  | c :: rest =>
      match c, rest with
      | '$', '\x7b' :: rest2 =>
          let p := scanPlaceholder rest2 1 []
          if p.1.isEmpty then true else hasEmptyPlaceholder p.2
      | _, rest => hasEmptyPlaceholder rest
termination_by l => l.length
decreasing_by
  · exact Nat.lt_succ_of_le (Nat.lt_succ_of_le (scanPlaceholder_rest_length ..)).le
  · simp

/-! ## Derive-macro enum (variant-set) conversion (`generate_enum_typedef`) -/

/-- `enum RenameAll`: the six case policies. -/
inductive RenameAll : Type where
  | camelCase | pascalCase | snakeCase | screamingSnakeCase | kebabCase | screamingKebabCase
deriving DecidableEq

/-- `to_camel_case`, tracking the character index and the capitalize flag. -/
def toCamelCaseAux : List Char → Nat → Bool → List Char
  | [], _, _ => []
  | c :: rest, i, capNext =>
      if c = '_' then toCamelCaseAux rest (i + 1) true
      else if capNext then c.toUpper :: toCamelCaseAux rest (i + 1) false
      else if i = 0 then c.toLower :: toCamelCaseAux rest (i + 1) false
      else c :: toCamelCaseAux rest (i + 1) capNext

def to_camel_case (name : String) : String :=
  String.mk (toCamelCaseAux name.data 0 false)

/-- `to_pascal_case`. -/
def toPascalCaseAux : List Char → Bool → List Char
  | [], _ => []
  | c :: rest, capNext =>
      if c = '_' then toPascalCaseAux rest true
      else if capNext then c.toUpper :: toPascalCaseAux rest false
      else c :: toPascalCaseAux rest capNext

def to_pascal_case (name : String) : String :=
  String.mk (toPascalCaseAux name.data true)

/-- `to_snake_case` (ASCII model of `char::is_uppercase`). -/
def toSnakeCaseAux : List Char → Nat → List Char
  | [], _ => []
  | c :: rest, i =>
      (if c.isUpper ∧ i > 0 then ['_', c.toLower] else [c.toLower]) ++ toSnakeCaseAux rest (i + 1)

def to_snake_case (name : String) : String :=
  String.mk (toSnakeCaseAux name.data 0)

/-- `RenameAll::apply`. -/
def RenameAll.apply (ra : RenameAll) (name : String) : String :=
  match ra with
  | .camelCase => to_camel_case name
  | .pascalCase => to_pascal_case name
  | .snakeCase => to_snake_case name
  | .screamingSnakeCase => String.mk ((to_snake_case name).data.map Char.toUpper)
  | .kebabCase => String.mk ((to_snake_case name).data.map (fun c => if c = '_' then '-' else c))
  | .screamingKebabCase =>
      String.mk (((to_snake_case name).data.map (fun c => if c = '_' then '-' else c)).map Char.toUpper)

/-- The container-level attributes read by `generate_enum_typedef`. -/
structure ContainerAttrs : Type where
  renameAll : Option RenameAll
  tag : Option String
  content : Option String
  untagged : Bool

/-- The fields of one enum variant, with each Rust field type already turned
into its `TypeDef` by `type_to_typedef` (the `TS::typescript()` call). A
named field carries its identifier, its `rename` attribute and its `skip`
attribute. -/
inductive VariantFields : Type where
  | unit
  | unnamed (tys : List TypeDef)
  | named (fs : List (String × Option String × Bool × TypeDef))

/-- One enum variant with its identifier and its `rename` attribute. -/
structure Variant : Type where
  name : String
  rename : Option String
  fields : VariantFields

/-- `matches!(v.fields, Fields::Unit)`. -/
def VariantFields.isUnit : VariantFields → Bool
  | .unit => true
  | _ => false

/-- `get_field_name`: field-level rename, else container `rename_all`, else
the original name. -/
def getFieldName (original : String) (rename : Option String) (ca : ContainerAttrs) : String :=
  match rename with
  | some r => r
  | none =>
      match ca.renameAll with
      | some ra => ra.apply original
      | none => original

/-- The named-field list of a variant body: `skip` fields dropped, each kept
field named by its `rename` attribute or its original identifier. -/
def variantNamedFields (fs : List (String × Option String × Bool × TypeDef)) : List Field :=
  fs.filterMap fun f =>
    if f.2.2.1 then none
    else some (.mk (f.2.1.getD f.1) f.2.2.2 false false)

/-- One variant's object expression in the tagged (internal or adjacent)
encoding. -/
def taggedVariantExpr (tagName : String) (contentName : Option String) (ca : ContainerAttrs)
    (v : Variant) : TypeDef :=
  let vname := getFieldName v.name v.rename ca
  let tagField : Field := .mk tagName (.literal (.str vname)) false false
  match v.fields with
  | .unit => .object [tagField]
  | .unnamed tys =>
      match contentName with
      | some content =>
          let contentType := match tys with
            | [ty] => ty
            | _ => .tuple tys
          .object [tagField, .mk content contentType false false]
      | none =>
          match tys with
          | [ty] => .object [tagField, .mk "value" ty false false]
          | _ => .object [tagField, .mk "value" (.tuple tys) false false]
  | .named fs =>
      match contentName with
      | some content => .object [tagField, .mk content (.object (variantNamedFields fs)) false false]
      | none => .object (tagField :: variantNamedFields fs)

/-- `generate_untagged_enum`: one variant's expression. -/
def untaggedVariantExpr (ca : ContainerAttrs) (v : Variant) : TypeDef :=
  let vname := getFieldName v.name v.rename ca
  match v.fields with
  | .unit => .literal (.str vname)
  | .unnamed [ty] => ty
  | .unnamed tys => .tuple tys
  | .named fs => .object (variantNamedFields fs)

/-- `generate_enum_typedef`: `none` models the empty-enum `syn::Error`; the
produced token stream is modelled by the `TypeDef` it evaluates to. -/
def generate_enum_typedef (variants : List Variant) (ca : ContainerAttrs) : Option TypeDef :=
  if variants.isEmpty then none
  else
    let allUnit := variants.all fun v => v.fields.isUnit
    if ca.untagged then some (.union (variants.map (untaggedVariantExpr ca)))
    else
      let tagName := ca.tag.getD "type"
      if allUnit then
        some (.union (variants.map fun v => .literal (.str (getFieldName v.name v.rename ca))))
      else some (.union (variants.map (taggedVariantExpr tagName ca.content ca)))

/-! ## Specification-side definitions, for comparison with the code -/

mutual
/-- Whether a `Ref` with the given name occurs anywhere inside a tree
(descending into every node, including `Named` definitions). -/
def refOccurs (m : String) : TypeDef → Bool
  | .ref n => n = m
  | .named _ d => refOccurs m d
  | .array inner => refOccurs m inner
  | .tuple items => refOccursList m items
  | .object fields => refOccursFields m fields
  | .union variants => refOccursList m variants
  | .intersection types => refOccursList m types
  | .record k v => refOccurs m k || refOccurs m v
  | .function ps r => refOccursFields m ps || refOccurs m r
  | .generic _ args => refOccursList m args
  | .primitive _ => false
  | .literal _ => false
termination_by structural t => t

def refOccursList (m : String) : List TypeDef → Bool
  | [] => false
  | t :: ts => refOccurs m t || refOccursList m ts
termination_by structural ts => ts

def refOccursFields (m : String) : List Field → Bool
  | [] => false
  | .mk _ ty _ _ :: fs => refOccurs m ty || refOccursFields m fs
termination_by structural fs => fs
end

mutual
/-- Written from the spec's words (§4.4, claim C2): the names reachable via a
`Ref` when the traversal does *not* cross into another `Named`'s own `def`. -/
def specRefs : TypeDef → List String
  | .ref n => [n]
  | .named _ _ => []
  | .array inner => specRefs inner
  | .tuple items => specRefsList items
  | .object fields => specRefsFields fields
  | .union variants => specRefsList variants
  | .intersection types => specRefsList types
  | .record k v => specRefs k ++ specRefs v
  | .function ps r => specRefsFields ps ++ specRefs r
  | .generic _ args => specRefsList args
  | .primitive _ => []
  | .literal _ => []
termination_by structural t => t

def specRefsList : List TypeDef → List String
  | [] => []
  | t :: ts => specRefs t ++ specRefsList ts
termination_by structural ts => ts

def specRefsFields : List Field → List String
  | [] => []
  | .mk _ ty _ _ :: fs => specRefs ty ++ specRefsFields fs
termination_by structural fs => fs
end

/-- The dependency set claim C2 describes for a stored `Named` node: the
registered names with a `Ref` inside the node's `def`, collected without
crossing into any nested `Named`'s own `def`. -/
def claimedDeps (keys : List String) : TypeDef → List String
  | .named _ d => ((specRefs d).filter (fun m => keys.contains m)).dedup
  | t => ((specRefs t).filter (fun m => keys.contains m)).dedup

mutual
/-- The names of all `Named` nodes occurring anywhere in a tree, in the
order the extraction traversal meets them, with multiplicity. -/
def namedNames : TypeDef → List String
  | .named n d => n :: namedNames d
  | .array inner => namedNames inner
  | .tuple items => namedNamesList items
  | .object fields => namedNamesFields fields
  | .union variants => namedNamesList variants
  | .intersection types => namedNamesList types
  | .record k v => namedNames k ++ namedNames v
  | .function ps r => namedNamesFields ps ++ namedNames r
  | .generic _ args => namedNamesList args
  | .primitive _ => []
  | .ref _ => []
  | .literal _ => []
termination_by structural t => t

def namedNamesList : List TypeDef → List String
  | [] => []
  | t :: ts => namedNames t ++ namedNamesList ts
termination_by structural ts => ts

def namedNamesFields : List Field → List String
  | [] => []
  | .mk _ ty _ _ :: fs => namedNames ty ++ namedNamesFields fs
termination_by structural fs => fs
end

/-- `m` appears strictly before `n` in the list `l`. -/
def before (l : List String) (m n : String) : Prop :=
  ∃ i j : Nat, i < j ∧ l[i]? = some m ∧ l[j]? = some n

/-- The dependency edge of the registry graph: `m ∈ deps R n`, i.e. the type
named `n` depends on the type named `m`. -/
def dependsOn (R : Registry) (m n : String) : Prop :=
  m ∈ deps R n

/-- The concrete registry refuting C2 as stated: `A`'s body nests the full
`Named "B"` node whose own definition holds `Ref "C"`, and `C` is registered. -/
def registryC2 : Registry :=
  addTypedef (addTypedef emptyRegistry (.named "A" (.named "B" (.ref "C"))))
    (.named "C" (.primitive .string))

/-- A concrete acyclic registry: `User` (registered first) refers to `UserId`. -/
def registryC1 : Registry :=
  addTypedef (addTypedef emptyRegistry
    (.named "User" (.object [.mk "id" (.ref "UserId") false false])))
    (.named "UserId" (.primitive .string))

/-- The loop invariant of Kahn's algorithm in `sorted_types`. -/
structure KahnInv (R : Registry) (indeg : String → Nat) (queue result : List String) : Prop where
  result_nodup : result.Nodup
  queue_nodup : queue.Nodup
  disj : ∀ x ∈ queue, x ∉ result
  result_sub : ∀ x ∈ result, x ∈ regOrder R
  queue_sub : ∀ x ∈ queue, x ∈ regOrder R
  indeg_eq : ∀ n, indeg n = ((deps R n).filter (fun m => !result.contains m)).length
  queue_done : ∀ n ∈ queue, ∀ m ∈ deps R n, m ∈ result
  res_order : ∀ n ∈ result, ∀ m ∈ deps R n, before result m n
  discovered : ∀ n ∈ regOrder R, (∀ m ∈ deps R n, m ∈ result) → n ∈ result ∨ n ∈ queue

/-! ## Supporting lemmas -/

theorem lookup_some_mem {β : Type} {R : List (String × β)} {b : String} {v : β}
    (h : List.lookup b R = some v) : b ∈ R.map Prod.fst := by
  induction R with
  | nil => simp [List.lookup] at h
  | cons p rest ih =>
      rw [List.lookup] at h
      by_cases hb : b = p.1
      · simp [hb]
      · rw [show (b == p.1) = false from beq_eq_false_iff_ne.mpr hb] at h
        simp [ih h]

theorem deps_nonempty_mem {R : Registry} {m n : String} (h : m ∈ deps R n) :
    n ∈ regOrder R := by
  unfold deps at h
  cases hl : List.lookup n R with
  | none => rw [hl] at h; simp at h
  | some v => exact lookup_some_mem hl

theorem before_append {l l' : List String} {m n : String} (h : before l m n) :
    before (l ++ l') m n := by
  obtain ⟨i, j, hij, hi, hj⟩ := h
  have hjl : j < l.length := (List.getElem?_eq_some.mp hj).1
  refine ⟨i, j, hij, ?_, ?_⟩
  · rw [List.getElem?_append_left (lt_trans hij hjl)]; exact hi
  · rw [List.getElem?_append_left hjl]; exact hj

theorem before_append_last {l : List String} {m n : String} (hm : m ∈ l) :
    before (l ++ [n]) m n := by
  obtain ⟨i, hi⟩ := List.mem_iff_getElem?.mp hm
  have hil : i < l.length := (List.getElem?_eq_some.mp hi).1
  refine ⟨i, l.length, hil, ?_, ?_⟩
  · rw [List.getElem?_append_left hil]; exact hi
  · simp

mutual
/-- The extraction walk only appends to the registry. -/
theorem extract_mono : ∀ (t : TypeDef) (R : Registry), ∃ S, extractNamedTypes R t = R ++ S
  | .named n d, R => by
      rw [extractNamedTypes]
      by_cases h : (regOrder R).contains n
      · rw [if_pos h]; exact ⟨[], by simp⟩
      · rw [if_neg h]
        obtain ⟨S, hS⟩ := extract_mono d (R ++ [(n, .named n d)])
        exact ⟨(n, .named n d) :: S, by rw [hS]; simp⟩
  | .array inner, R => by rw [extractNamedTypes]; exact extract_mono inner R
  | .tuple items, R => by rw [extractNamedTypes]; exact extract_mono_list items R
  | .object fields, R => by rw [extractNamedTypes]; exact extract_mono_fields fields R
  | .union items, R => by rw [extractNamedTypes]; exact extract_mono_list items R
  | .intersection items, R => by rw [extractNamedTypes]; exact extract_mono_list items R
  | .record k v, R => by
      rw [extractNamedTypes]
      obtain ⟨S1, h1⟩ := extract_mono k R
      obtain ⟨S2, h2⟩ := extract_mono v (extractNamedTypes R k)
      exact ⟨S1 ++ S2, by rw [h2, h1]; simp⟩
  | .function ps r, R => by
      rw [extractNamedTypes]
      obtain ⟨S1, h1⟩ := extract_mono_fields ps R
      obtain ⟨S2, h2⟩ := extract_mono r (extractNamedTypesFields R ps)
      exact ⟨S1 ++ S2, by rw [h2, h1]; simp⟩
  | .generic _ args, R => by rw [extractNamedTypes]; exact extract_mono_list args R
  | .primitive _, R => by rw [extractNamedTypes]; exact ⟨[], by simp⟩
  | .ref _, R => by rw [extractNamedTypes]; exact ⟨[], by simp⟩
  | .literal _, R => by rw [extractNamedTypes]; exact ⟨[], by simp⟩
termination_by structural t => t

theorem extract_mono_list : ∀ (ts : List TypeDef) (R : Registry),
    ∃ S, extractNamedTypesList R ts = R ++ S
  | [], R => by rw [extractNamedTypesList]; exact ⟨[], by simp⟩
  | t :: ts, R => by
      rw [extractNamedTypesList]
      obtain ⟨S1, h1⟩ := extract_mono t R
      obtain ⟨S2, h2⟩ := extract_mono_list ts (extractNamedTypes R t)
      exact ⟨S1 ++ S2, by rw [h2, h1]; simp⟩
termination_by structural ts => ts

theorem extract_mono_fields : ∀ (fs : List Field) (R : Registry),
    ∃ S, extractNamedTypesFields R fs = R ++ S
  | [], R => by rw [extractNamedTypesFields]; exact ⟨[], by simp⟩
  | .mk _ ty _ _ :: fs, R => by
      rw [extractNamedTypesFields]
      obtain ⟨S1, h1⟩ := extract_mono ty R
      obtain ⟨S2, h2⟩ := extract_mono_fields fs (extractNamedTypes R ty)
      exact ⟨S1 ++ S2, by rw [h2, h1]; simp⟩
termination_by structural fs => fs
end

mutual
/-- Characterisation of `collect_dependencies`: a name is collected exactly
when it is registered and a `Ref` to it occurs anywhere in the tree. -/
theorem collect_iff_refOccurs : ∀ (t : TypeDef) (keys : List String) (m : String),
    m ∈ collectDependencies keys t ↔ m ∈ keys ∧ refOccurs m t = true
  | .named _ d, keys, m => by
      rw [collectDependencies, refOccurs]; exact collect_iff_refOccurs d keys m
  | .ref n, keys, m => by
      rw [collectDependencies, refOccurs]
      by_cases h : keys.contains n
      · rw [if_pos h]
        simp only [List.mem_singleton, decide_eq_true_eq]
        constructor
        · rintro rfl; exact ⟨List.elem_iff.mp h, rfl⟩
        · rintro ⟨_, rfl⟩; rfl
      · rw [if_neg h]
        simp only [List.not_mem_nil, false_iff, not_and, decide_eq_true_eq]
        rintro hm rfl
        exact h (List.elem_iff.mpr hm)
  | .array inner, keys, m => by
      rw [collectDependencies, refOccurs]; exact collect_iff_refOccurs inner keys m
  | .tuple items, keys, m => by
      rw [collectDependencies, refOccurs]; exact collect_iff_refOccurs_list items keys m
  | .object fields, keys, m => by
      rw [collectDependencies, refOccurs]; exact collect_iff_refOccurs_fields fields keys m
  | .union items, keys, m => by
      rw [collectDependencies, refOccurs]; exact collect_iff_refOccurs_list items keys m
  | .intersection items, keys, m => by
      rw [collectDependencies, refOccurs]; exact collect_iff_refOccurs_list items keys m
  | .record k v, keys, m => by
      rw [collectDependencies, refOccurs]
      rw [List.mem_append, collect_iff_refOccurs k keys m, collect_iff_refOccurs v keys m]
      rw [Bool.or_eq_true]
      tauto
  | .function ps r, keys, m => by
      rw [collectDependencies, refOccurs]
      rw [List.mem_append, collect_iff_refOccurs_fields ps keys m, collect_iff_refOccurs r keys m]
      rw [Bool.or_eq_true]
      tauto
  | .generic _ args, keys, m => by
      rw [collectDependencies, refOccurs]; exact collect_iff_refOccurs_list args keys m
  | .primitive _, keys, m => by rw [collectDependencies, refOccurs]; simp
  | .literal _, keys, m => by rw [collectDependencies, refOccurs]; simp
termination_by structural t => t

theorem collect_iff_refOccurs_list : ∀ (ts : List TypeDef) (keys : List String) (m : String),
    m ∈ collectDependenciesList keys ts ↔ m ∈ keys ∧ refOccursList m ts = true
  | [], keys, m => by rw [collectDependenciesList, refOccursList]; simp
  | t :: ts, keys, m => by
      rw [collectDependenciesList, refOccursList]
      rw [List.mem_append, collect_iff_refOccurs t keys m, collect_iff_refOccurs_list ts keys m]
      rw [Bool.or_eq_true]
      tauto
termination_by structural ts => ts

theorem collect_iff_refOccurs_fields : ∀ (fs : List Field) (keys : List String) (m : String),
    m ∈ collectDependenciesFields keys fs ↔ m ∈ keys ∧ refOccursFields m fs = true
  | [], keys, m => by rw [collectDependenciesFields, refOccursFields]; simp
  | .mk _ ty _ _ :: fs, keys, m => by
      rw [collectDependenciesFields, refOccursFields]
      rw [List.mem_append, collect_iff_refOccurs ty keys m, collect_iff_refOccurs_fields fs keys m]
      rw [Bool.or_eq_true]
      tauto
termination_by structural fs => fs
end

/-- Every collected dependency is a registered name. -/
theorem deps_subset_regOrder (R : Registry) (n : String) : deps R n ⊆ regOrder R := by
  intro m hm
  unfold deps at hm
  cases hl : List.lookup n R with
  | none => rw [hl] at hm; simp at hm
  | some v =>
      rw [hl] at hm
      rw [List.mem_dedup] at hm
      exact ((collect_iff_refOccurs v (regOrder R) m).mp hm).1

/-! ## Claim C4: re-adding the same Named value is a no-op -/

/-- C4: adding the same `Named` value a second time leaves the registry — and
hence `sorted_types().len()` — unchanged. -/
theorem add_typedef_idempotent_on_named (R : Registry) (n : String) (d : TypeDef) :
    addTypedef (addTypedef R (.named n d)) (.named n d) = addTypedef R (.named n d) ∧
    (sortedTypes (addTypedef (addTypedef R (.named n d)) (.named n d))).length =
      (sortedTypes (addTypedef R (.named n d))).length := by
  have hmem : n ∈ regOrder (addTypedef R (.named n d)) := by
    unfold addTypedef
    rw [extractNamedTypes]
    by_cases h : (regOrder R).contains n
    · rw [if_pos h]; exact List.elem_iff.mp h
    · rw [if_neg h]
      obtain ⟨S, hS⟩ := extract_mono d (R ++ [(n, .named n d)])
      rw [hS]
      unfold regOrder
      simp
  have heq : addTypedef (addTypedef R (.named n d)) (.named n d) = addTypedef R (.named n d) := by
    conv_lhs => rw [addTypedef, extractNamedTypes]
    rw [if_pos (List.elem_iff.mpr hmem)]
  exact ⟨heq, by rw [heq]⟩

/-! ## Claim C5: which Named nodes of an added tree get inserted -/

/-- C5, counterexample to the claim as stated: in the tree
`Named "A" (Named "A" (Named "B" string))` added to an empty registry, the
`Named "B"` node occurs in the tree and `"B"` is not already present, yet
`"B"` is not inserted — the walk stops at the inner `Named "A"` because that
name is already present by then. -/
theorem extract_skips_nested_counterexample :
    "B" ∈ namedNames (TypeDef.named "A" (.named "A" (.named "B" (.primitive .string)))) ∧
    "B" ∉ regOrder emptyRegistry ∧
    "B" ∉ regOrder (addTypedef emptyRegistry
      (TypeDef.named "A" (.named "A" (.named "B" (.primitive .string))))) := by
  decide

mutual
/-- When the tree's `Named` names are pairwise distinct and all absent from
the registry, extraction appends exactly those names, in traversal order. -/
theorem extract_keys_fresh : ∀ (t : TypeDef) (R : Registry),
    (namedNames t).Nodup → (∀ x ∈ namedNames t, x ∉ regOrder R) →
    regOrder (extractNamedTypes R t) = regOrder R ++ namedNames t
  | .named n d, R => by
      intro hnd hfresh
      rw [namedNames] at hnd hfresh ⊢
      rw [extractNamedTypes]
      have hn : n ∉ regOrder R := hfresh n (by simp)
      rw [if_neg (fun hc => hn (List.elem_iff.mp hc))]
      rw [List.nodup_cons] at hnd
      have hro : regOrder (R ++ [(n, TypeDef.named n d)]) = regOrder R ++ [n] := by
        unfold regOrder; simp
      have hrec := extract_keys_fresh d (R ++ [(n, TypeDef.named n d)]) hnd.2 (by
        intro x hx
        rw [hro, List.mem_append]
        rintro (hxr | hxn)
        · exact hfresh x (by simp [hx]) hxr
        · rw [List.mem_singleton] at hxn
          exact hnd.1 (hxn ▸ hx))
      rw [hrec, hro]
      simp
  | .array inner, R => by
      intro hnd hfresh
      rw [namedNames] at hnd hfresh ⊢
      rw [extractNamedTypes]
      exact extract_keys_fresh inner R hnd hfresh
  | .tuple items, R => by
      intro hnd hfresh
      rw [namedNames] at hnd hfresh ⊢
      rw [extractNamedTypes]
      exact extract_keys_fresh_list items R hnd hfresh
  | .object fields, R => by
      intro hnd hfresh
      rw [namedNames] at hnd hfresh ⊢
      rw [extractNamedTypes]
      exact extract_keys_fresh_fields fields R hnd hfresh
  | .union items, R => by
      intro hnd hfresh
      rw [namedNames] at hnd hfresh ⊢
      rw [extractNamedTypes]
      exact extract_keys_fresh_list items R hnd hfresh
  | .intersection items, R => by
      intro hnd hfresh
      rw [namedNames] at hnd hfresh ⊢
      rw [extractNamedTypes]
      exact extract_keys_fresh_list items R hnd hfresh
  | .record k v, R => by
      intro hnd hfresh
      rw [namedNames] at hnd hfresh ⊢
      rw [extractNamedTypes]
      rw [List.nodup_append] at hnd
      have h1 := extract_keys_fresh k R hnd.1 (fun x hx => hfresh x (by simp [hx]))
      have hrec := extract_keys_fresh v (extractNamedTypes R k) hnd.2.1 (by
        intro x hx
        rw [h1, List.mem_append]
        rintro (hxr | hxk)
        · exact hfresh x (by simp [hx]) hxr
        · exact hnd.2.2 hxk hx)
      rw [hrec, h1, List.append_assoc]
  | .function ps r, R => by
      intro hnd hfresh
      rw [namedNames] at hnd hfresh ⊢
      rw [extractNamedTypes]
      rw [List.nodup_append] at hnd
      have h1 := extract_keys_fresh_fields ps R hnd.1 (fun x hx => hfresh x (by simp [hx]))
      have hrec := extract_keys_fresh r (extractNamedTypesFields R ps) hnd.2.1 (by
        intro x hx
        rw [h1, List.mem_append]
        rintro (hxr | hxk)
        · exact hfresh x (by simp [hx]) hxr
        · exact hnd.2.2 hxk hx)
      rw [hrec, h1, List.append_assoc]
  | .generic _ args, R => by
      intro hnd hfresh
      rw [namedNames] at hnd hfresh ⊢
      rw [extractNamedTypes]
      exact extract_keys_fresh_list args R hnd hfresh
  | .primitive _, R => by
      intro _ _
      rw [namedNames, extractNamedTypes]
      simp
  | .ref _, R => by
      intro _ _
      rw [namedNames, extractNamedTypes]
      simp
  | .literal _, R => by
      intro _ _
      rw [namedNames, extractNamedTypes]
      simp
termination_by structural t => t

theorem extract_keys_fresh_list : ∀ (ts : List TypeDef) (R : Registry),
    (namedNamesList ts).Nodup → (∀ x ∈ namedNamesList ts, x ∉ regOrder R) →
    regOrder (extractNamedTypesList R ts) = regOrder R ++ namedNamesList ts
  | [], R => by
      intro _ _
      rw [namedNamesList, extractNamedTypesList]
      simp
  | t :: ts, R => by
      intro hnd hfresh
      rw [namedNamesList] at hnd hfresh ⊢
      rw [extractNamedTypesList]
      rw [List.nodup_append] at hnd
      have h1 := extract_keys_fresh t R hnd.1 (fun x hx => hfresh x (by simp [hx]))
      have hrec := extract_keys_fresh_list ts (extractNamedTypes R t) hnd.2.1 (by
        intro x hx
        rw [h1, List.mem_append]
        rintro (hxr | hxk)
        · exact hfresh x (by simp [hx]) hxr
        · exact hnd.2.2 hxk hx)
      rw [hrec, h1, List.append_assoc]
termination_by structural ts => ts

theorem extract_keys_fresh_fields : ∀ (fs : List Field) (R : Registry),
    (namedNamesFields fs).Nodup → (∀ x ∈ namedNamesFields fs, x ∉ regOrder R) →
    regOrder (extractNamedTypesFields R fs) = regOrder R ++ namedNamesFields fs
  | [], R => by
      intro _ _
      rw [namedNamesFields, extractNamedTypesFields]
      simp
  | .mk _ ty _ _ :: fs, R => by
      intro hnd hfresh
      rw [namedNamesFields] at hnd hfresh ⊢
      rw [extractNamedTypesFields]
      rw [List.nodup_append] at hnd
      have h1 := extract_keys_fresh ty R hnd.1 (fun x hx => hfresh x (by simp [hx]))
      have hrec := extract_keys_fresh_fields fs (extractNamedTypes R ty) hnd.2.1 (by
        intro x hx
        rw [h1, List.mem_append]
        rintro (hxr | hxk)
        · exact hfresh x (by simp [hx]) hxr
        · exact hnd.2.2 hxk hx)
      rw [hrec, h1, List.append_assoc]
termination_by structural fs => fs
end

/-- C5, amended: when the `Named` names occurring in the added tree are
pairwise distinct and none is already present, every `Named` node occurring
anywhere in the tree ends up inserted in the registry's map. -/
theorem add_typedef_inserts_fresh_named (R : Registry) (t : TypeDef)
    (h1 : (namedNames t).Nodup) (h2 : ∀ x ∈ namedNames t, x ∉ regOrder R) :
    ∀ n ∈ namedNames t, n ∈ regOrder (addTypedef R t) := by
  intro n hn
  rw [addTypedef, extract_keys_fresh t R h1 h2, List.mem_append]
  exact Or.inr hn

/-- Witness for C5's amended theorem: the nested `Named "B"` of a fresh,
duplicate-free tree is inserted. -/
theorem add_typedef_inserts_fresh_named_witness :
    ((namedNames (TypeDef.named "A"
        (.object [.mk "b" (.named "B" (.primitive .string)) false false]))).Nodup ∧
      (∀ x ∈ namedNames (TypeDef.named "A"
        (.object [.mk "b" (.named "B" (.primitive .string)) false false])),
        x ∉ regOrder emptyRegistry) ∧
      "B" ∈ namedNames (TypeDef.named "A"
        (.object [.mk "b" (.named "B" (.primitive .string)) false false]))) ∧
    "B" ∈ regOrder (addTypedef emptyRegistry
      (TypeDef.named "A" (.object [.mk "b" (.named "B" (.primitive .string)) false false]))) := by
  refine ⟨⟨by decide, by decide, by decide⟩, ?_⟩
  exact add_typedef_inserts_fresh_named emptyRegistry _ (by decide) (by decide) "B" (by decide)

/-! ## Claim C2: the dependency set of a registered Named type -/

/-- C2, counterexample to the claim as stated: `collect_dependencies` crosses
into the nested `Named "B"`'s own `def`, so `"C"` is in `A`'s dependency set
even though no `Ref` is reachable without crossing a nested `Named` body. -/
theorem collect_crosses_nested_named_counterexample :
    List.lookup "A" registryC2 = some (.named "A" (.named "B" (.ref "C"))) ∧
    "C" ∈ deps registryC2 "A" ∧
    "C" ∉ claimedDeps (regOrder registryC2) (.named "A" (.named "B" (.ref "C"))) := by
  refine ⟨rfl, by decide, by decide⟩

/-- C2, amended: the dependency set used for ordering is exactly the set of
registered names `M` such that a `Ref(M)` occurs anywhere inside the stored
node (the traversal descends into nested `Named` definitions too). -/
theorem deps_eq_registered_refOccurs (R : Registry) (n : String) (v : TypeDef)
    (h : List.lookup n R = some v) :
    ∀ m, m ∈ deps R n ↔ m ∈ regOrder R ∧ refOccurs m v = true := by
  intro m
  unfold deps
  rw [h, List.mem_dedup]
  exact collect_iff_refOccurs v _ m

/-- Witness for C2's amended theorem at the concrete registry. -/
theorem deps_eq_registered_refOccurs_witness :
    List.lookup "A" registryC2 = some (.named "A" (.named "B" (.ref "C"))) ∧
    (∀ m, m ∈ deps registryC2 "A" ↔
      m ∈ regOrder registryC2 ∧ refOccurs m (.named "A" (.named "B" (.ref "C"))) = true) := by
  exact ⟨rfl, deps_eq_registered_refOccurs registryC2 "A" _ rfl⟩

/-! ## Claims C6 and C7: the template pattern parser -/

theorem parseLoop_lengths : ∀ (l : List Char) (current : List Char)
    (strings types ss ts : List String),
    parseLoop l current strings types = some (ss, ts) →
    ss.length + types.length = ts.length + strings.length + 1 := by
  intro l current strings types
  induction l, current, strings, types using parseLoop.induct with
  | case1 current strings types =>
      intro ss ts h
      rw [parseLoop] at h
      injection h with h
      injection h with h1 h2
      subst h1; subst h2
      simp
      omega
  | case2 current strings types rest2 p hempty =>
      intro ss ts h
      rw [parseLoop] at h
      simp only [hempty, if_true] at h
      exact Option.noConfusion h
  | case3 current strings types rest2 p hempty ih =>
      intro ss ts h
      rw [parseLoop] at h
      simp only [hempty, if_false, Bool.false_eq_true] at h
      have := ih ss ts h
      simp at this
      omega
  | case4 current strings types c rest hne ih =>
      intro ss ts h
      rw [parseLoop] at h
      exact ih ss ts h
      exact hne

/-- C6: whenever the template pattern parser succeeds, it returns exactly one
more literal string than placeholder types. -/
theorem parse_template_pattern_lengths (s : String) (ss ts : List String)
    (h : parse_template_pattern s = some (ss, ts)) :
    ss.length = ts.length + 1 := by
  have := parseLoop_lengths s.data [] [] [] ss ts h
  simpa using this

/-- Witness for C6 at the pattern `"vm-${string}"`. -/
theorem parse_template_pattern_lengths_witness :
    parse_template_pattern "vm-$\x7bstring\x7d" = some (["vm-", ""], ["string"]) ∧
    (["vm-", ""] : List String).length = (["string"] : List String).length + 1 := by
  refine ⟨by simp [parse_template_pattern, parseLoop, scanPlaceholder], ?_⟩
  exact parse_template_pattern_lengths "vm-$\x7bstring\x7d" ["vm-", ""] ["string"]
    (by simp [parse_template_pattern, parseLoop, scanPlaceholder])

theorem parseLoop_none_iff : ∀ (l : List Char) (current : List Char)
    (strings types : List String),
    parseLoop l current strings types = none ↔ hasEmptyPlaceholder l = true := by
  intro l current strings types
  induction l, current, strings, types using parseLoop.induct with
  | case1 current strings types =>
      rw [parseLoop, hasEmptyPlaceholder]
      simp
  | case2 current strings types rest2 p hempty =>
      rw [parseLoop, hasEmptyPlaceholder]
      simp only [hempty, if_true]
  | case3 current strings types rest2 p hempty ih =>
      rw [parseLoop, hasEmptyPlaceholder]
      simp only [hempty, if_false, Bool.false_eq_true]
      exact ih
  | case4 current strings types c rest hne ih =>
      rw [parseLoop, hasEmptyPlaceholder]
      exact ih
      exact hne
      exact hne

/-- C7: the template pattern parser fails exactly on the inputs containing an
empty placeholder (a `"${"` opener whose body, up to the matching close brace
or the end of the input, is empty), and succeeds on every other input. -/
theorem parse_template_pattern_fails_iff_empty_placeholder (s : String) :
    parse_template_pattern s = none ↔ hasEmptyPlaceholder s.data = true :=
  parseLoop_none_iff s.data [] [] []

/-! ## Claim C8: all-unit variant sets collapse to a string-literal union -/

/-- C8: for every non-empty variant set whose variants are all unit variants,
the converted inner type is the union of the variants' (possibly renamed)
names as string literals, under every tagging policy (internal tag, custom
tag, adjacent tag with content, untagged). -/
theorem all_unit_enum_string_union (variants : List Variant) (ca : ContainerAttrs)
    (h1 : variants.isEmpty = false)
    (h2 : variants.all (fun v => v.fields.isUnit) = true) :
    generate_enum_typedef variants ca =
      some (.union (variants.map fun v => .literal (.str (getFieldName v.name v.rename ca)))) := by
  unfold generate_enum_typedef
  simp only [h1, Bool.false_eq_true, if_false]
  by_cases hu : ca.untagged
  · simp only [hu, if_true]
    have hmap : variants.map (untaggedVariantExpr ca) =
        variants.map fun v => .literal (.str (getFieldName v.name v.rename ca)) := by
      apply List.map_congr_left
      intro v hv
      have hvu := List.all_eq_true.mp h2 v hv
      unfold untaggedVariantExpr
      cases hf : v.fields with
      | unit => rfl
      | unnamed tys =>
          rw [hf] at hvu
          cases tys <;> simp [VariantFields.isUnit] at hvu
      | named fs =>
          rw [hf] at hvu
          simp [VariantFields.isUnit] at hvu
    rw [hmap]
  · simp only [hu, Bool.false_eq_true, if_false, h2, if_true]

/-- Witness for C8: `Status{Pending,Active}` yields the inner body
`"Pending" | "Active"` under the default internal tag, a custom tag, an
adjacent tag with content, and the untagged policy. -/
theorem all_unit_enum_string_union_witness :
    (([⟨"Pending", none, .unit⟩, ⟨"Active", none, .unit⟩] : List Variant).isEmpty = false ∧
      ([⟨"Pending", none, .unit⟩, ⟨"Active", none, .unit⟩] : List Variant).all
        (fun v => v.fields.isUnit) = true) ∧
    (∀ ca ∈ [(⟨none, none, none, false⟩ : ContainerAttrs),
        ⟨none, some "kind", none, false⟩,
        ⟨none, some "t", some "c", false⟩,
        ⟨none, none, none, true⟩],
      generate_enum_typedef [⟨"Pending", none, .unit⟩, ⟨"Active", none, .unit⟩] ca =
        some (.union [.literal (.str "Pending"), .literal (.str "Active")])) ∧
    (TypeDef.union [.literal (.str "Pending"), .literal (.str "Active")]).render =
      "\"Pending\" | \"Active\"" := by
  refine ⟨⟨rfl, rfl⟩, ?_, by decide⟩
  intro ca hca
  have h := all_unit_enum_string_union [⟨"Pending", none, .unit⟩, ⟨"Active", none, .unit⟩]
    ca rfl rfl
  rw [h]
  fin_cases hca <;> rfl

/-! ## Claim C3: a two-type mutual-reference cycle keeps both entries -/

theorem kahnRun_queue_nil (R : Registry) (fuel : Nat) (indeg : String → Nat)
    (result : List String) : kahnRun R fuel indeg [] result = result := by
  cases fuel <;> rfl

/-- C3: in a registry holding exactly two names each of whose definitions
refers to the other, `sorted_types()` returns exactly the two registered
names (in registration order) — nothing is dropped. -/
theorem cycle_two_types_sorted (R : Registry) (n1 n2 : String)
    (h : regOrder R = [n1, n2]) (h1 : n2 ∈ deps R n1) (h2 : n1 ∈ deps R n2) :
    sortedTypes R = [n1, n2] ∧ (sortedTypes R).length = 2 := by
  have hd1 : (deps R n1).length ≠ 0 := by
    intro hz
    rw [List.length_eq_zero] at hz
    rw [hz] at h1
    simp at h1
  have hd2 : (deps R n2).length ≠ 0 := by
    intro hz
    rw [List.length_eq_zero] at hz
    rw [hz] at h2
    simp at h2
  have hne1 : deps R n1 ≠ [] := fun hz => by simp [hz] at h1
  have hne2 : deps R n2 ≠ [] := fun hz => by simp [hz] at h2
  have hq : initialQueue R = [] := by
    unfold initialQueue
    rw [h]
    simp [hne1, hne2]
  have hres : sortedTypes R = [n1, n2] := by
    simp only [sortedTypes, hq, h, kahnRun_queue_nil]
    simp
  exact ⟨hres, by rw [hres]; rfl⟩

/-- Witness for C3 at a concrete mutual-reference registry. -/
theorem cycle_two_types_sorted_witness :
    (regOrder (addTypedef (addTypedef emptyRegistry (.named "A" (.ref "B")))
        (.named "B" (.ref "A"))) = ["A", "B"] ∧
      "B" ∈ deps (addTypedef (addTypedef emptyRegistry (.named "A" (.ref "B")))
        (.named "B" (.ref "A"))) "A" ∧
      "A" ∈ deps (addTypedef (addTypedef emptyRegistry (.named "A" (.ref "B")))
        (.named "B" (.ref "A"))) "B") ∧
    sortedTypes (addTypedef (addTypedef emptyRegistry (.named "A" (.ref "B")))
      (.named "B" (.ref "A"))) = ["A", "B"] := by
  refine ⟨⟨by decide, by decide, by decide⟩, ?_⟩
  exact (cycle_two_types_sorted _ "A" "B" (by decide) (by decide) (by decide)).1

/-! ## Claim C9: array rendering parenthesizes union element types -/

/-- C9: for every `T`, `render(Array(T))` is `render(T) ++ "[]"`, except that
a `Union` inner rendering is parenthesized first; in particular
`Array(Union([Ref "A", Ref "B"]))` renders as `"(A | B)[]"`. -/
theorem array_render_parenthesizes_union :
    (∀ T : TypeDef, (TypeDef.array T).render =
      (if T.isUnion then "(" ++ T.render ++ ")" else T.render) ++ "[]") ∧
    (TypeDef.array (.union [.ref "A", .ref "B"])).render = "(A | B)[]" := by
  constructor
  · intro T
    rw [TypeDef.render]
    by_cases h : T.isUnion
    · rw [if_pos h, if_pos h, String.append_assoc, String.append_assoc]
      rfl
    · rw [if_neg h, if_neg h]
  · decide

/-! ## Claim C10: `Option<T>` maps to the nullable union `T | null` -/

/-- C10: `Option<T>::typescript()` is `Union([T::typescript(), Null])`, which
renders as `render(T) ++ " | null"` — and never as `render(T) ++ " | undefined"`. -/
theorem option_typescript_nullable_union :
    (∀ t : TypeDef, optionTypescript t = .union [t, .primitive .null]) ∧
    (∀ t : TypeDef, (optionTypescript t).render = t.render ++ " | null") ∧
    (∀ t : TypeDef, (optionTypescript t).render ≠ t.render ++ " | undefined") := by
  refine ⟨fun t => rfl, fun t => ?_, fun t => ?_⟩
  · show (TypeDef.union [t, .primitive .null]).render = t.render ++ " | null"
    rw [TypeDef.render, renderList, renderList, renderList]
    show joinSep " | " [t.render, "null"] = t.render ++ " | null"
    rw [joinSep]
    show (t.render ++ " | ") ++ "null" = t.render ++ " | null"
    rw [String.append_assoc]
    rfl
  · show (TypeDef.union [t, .primitive .null]).render ≠ t.render ++ " | undefined"
    have h2 : (TypeDef.union [t, .primitive .null]).render = t.render ++ " | null" := by
      rw [TypeDef.render, renderList, renderList, renderList]
      show joinSep " | " [t.render, "null"] = t.render ++ " | null"
      rw [joinSep]
      show (t.render ++ " | ") ++ "null" = t.render ++ " | null"
      rw [String.append_assoc]
      rfl
    rw [h2]
    intro hcontra
    have := congrArg String.length hcontra
    rw [String.length_append, String.length_append,
      show (" | null" : String).length = 7 from rfl,
      show (" | undefined" : String).length = 12 from rfl] at this
    omega

/-! ## Claim C1: acyclic registries are emitted in dependency order -/

theorem deps_nodup (R : Registry) (n : String) : (deps R n).Nodup := by
  unfold deps
  cases List.lookup n R <;> simp [List.nodup_dedup]

theorem before_mem_left {l : List String} {m n : String} (h : before l m n) : m ∈ l := by
  obtain ⟨i, _, _, hi, _⟩ := h
  exact List.getElem?_mem hi

theorem mem_dependents {R : Registry} {d x : String} :
    x ∈ dependents R d ↔ x ∈ regOrder R ∧ d ∈ deps R x := by
  unfold dependents
  rw [List.mem_filter]
  simp [List.elem_iff]

theorem dependents_nodup (R : Registry) (hK : (regOrder R).Nodup) (d : String) :
    (dependents R d).Nodup := hK.filter _

theorem kahnInv_init (R : Registry) (hK : (regOrder R).Nodup) :
    KahnInv R (initialInDegree R) (initialQueue R) [] := by
  refine ⟨List.nodup_nil, hK.filter _, by simp, by simp, ?_, ?_, ?_, by simp, ?_⟩
  · intro x hx
    exact (List.mem_filter.mp hx).1
  · intro n
    unfold initialInDegree
    simp
  · intro n hn m hm
    exfalso
    have := (List.mem_filter.mp hn).2
    rw [decide_eq_true_eq, List.length_eq_zero] at this
    rw [this] at hm
    simp at hm
  · intro n hn hall
    right
    rw [initialQueue, List.mem_filter]
    have hnil : deps R n = [] := by
      rw [List.eq_nil_iff_forall_not_mem]
      intro m hm
      have := hall m hm
      simp at this
    simp [hnil, hn]

theorem decrementDependents_apply (ds : List String) :
    ∀ (indeg : String → Nat), ds.Nodup →
    (∀ x, (decrementDependents indeg ds).1 x = if x ∈ ds then indeg x - 1 else indeg x) ∧
    (decrementDependents indeg ds).2 = ds.filter (fun t => decide (indeg t - 1 = 0)) := by
  induction ds with
  | nil => intro indeg _; simp [decrementDependents]
  | cons t ts ih =>
      intro indeg hnd
      rw [List.nodup_cons] at hnd
      obtain ⟨ht, hts⟩ := hnd
      obtain ⟨ih1, ih2⟩ := ih (Function.update indeg t (indeg t - 1)) hts
      constructor
      · intro x
        rw [decrementDependents]
        simp only []
        rw [ih1 x]
        by_cases hx : x ∈ ts
        · have hxt : x ≠ t := fun h => ht (h ▸ hx)
          rw [if_pos hx, if_pos (List.mem_cons_of_mem _ hx), Function.update_noteq hxt]
        · rw [if_neg hx]
          by_cases hxt : x = t
          · subst hxt
            rw [if_pos (List.mem_cons_self x ts), Function.update_same]
          · rw [if_neg (by simp [hxt, hx]), Function.update_noteq hxt]
      · rw [decrementDependents]
        simp only []
        rw [ih2, List.filter_cons]
        have hcong : ts.filter (fun x => decide (Function.update indeg t (indeg t - 1) x - 1 = 0)) =
            ts.filter (fun x => decide (indeg x - 1 = 0)) := by
          apply List.filter_congr
          intro x hx
          rw [Function.update_noteq (fun h : x = t => ht (h ▸ hx))]
        rw [hcong]
        by_cases hz : indeg t - 1 = 0
        · simp [hz]
        · simp [hz]



theorem kahnStep (R : Registry) (hK : (regOrder R).Nodup)
    (indeg : String → Nat) (q : String) (queue result : List String)
    (inv : KahnInv R indeg (q :: queue) result) :
    KahnInv R (decrementDependents indeg (dependents R q)).1
      (queue ++ (decrementDependents indeg (dependents R q)).2)
      (result ++ [q]) := by
  obtain ⟨hdec1, hdec2⟩ := decrementDependents_apply (dependents R q) indeg
    (dependents_nodup R hK q)
  have hq_notin_result : q ∉ result := inv.disj q (List.mem_cons_self q queue)
  have hq_mem_keys : q ∈ regOrder R := inv.queue_sub q (List.mem_cons_self q queue)
  have hq_done : ∀ m ∈ deps R q, m ∈ result :=
    inv.queue_done q (List.mem_cons_self q queue)
  have hq_notin_queue : q ∉ queue := (List.nodup_cons.mp inv.queue_nodup).1
  have hqueue_nodup : queue.Nodup := (List.nodup_cons.mp inv.queue_nodup).2
  -- any dependent of q is not yet in the result, is not q, and is not queued
  have hds_not_res : ∀ x ∈ dependents R q, x ∉ result := by
    intro x hx hxr
    have hqd : q ∈ deps R x := (mem_dependents.mp hx).2
    exact hq_notin_result (before_mem_left (inv.res_order x hxr q hqd))
  have hds_ne_q : ∀ x ∈ dependents R q, x ≠ q := by
    intro x hx hxq
    subst hxq
    exact hq_notin_result (hq_done x (mem_dependents.mp hx).2)
  have hds_not_queue : ∀ x ∈ dependents R q, x ∉ queue := by
    intro x hx hxq
    have hqd : q ∈ deps R x := (mem_dependents.mp hx).2
    exact hq_notin_result (inv.queue_done x (List.mem_cons_of_mem q hxq) q hqd)
  have hzs_sub : ∀ x ∈ (decrementDependents indeg (dependents R q)).2, x ∈ dependents R q := by
    intro x hx
    rw [hdec2] at hx
    exact (List.mem_filter.mp hx).1
  -- the old in-degree filter list for a node
  have hfilter_nodup : ∀ n, ((deps R n).filter (fun m => !result.contains m)).Nodup :=
    fun n => (deps_nodup R n).filter _
  constructor
  -- result_nodup
  · rw [List.nodup_append]
    exact ⟨inv.result_nodup, List.nodup_singleton q,
      fun x hx hq' => hq_notin_result ((List.mem_singleton.mp hq') ▸ hx)⟩
  -- queue_nodup
  · rw [List.nodup_append]
    refine ⟨hqueue_nodup, ?_, ?_⟩
    · rw [hdec2]
      exact (dependents_nodup R hK q).filter _
    · intro x hx hx2
      exact hds_not_queue x (hzs_sub x hx2) hx
  -- disj
  · intro x hx
    rw [List.mem_append] at hx
    rw [List.mem_append, List.mem_singleton]
    rcases hx with hx | hx
    · rintro (hxr | hxq)
      · exact inv.disj x (List.mem_cons_of_mem q hx) hxr
      · exact hq_notin_queue (hxq ▸ hx)
    · rintro (hxr | hxq)
      · exact hds_not_res x (hzs_sub x hx) hxr
      · exact hds_ne_q x (hzs_sub x hx) hxq
  -- result_sub
  · intro x hx
    rw [List.mem_append, List.mem_singleton] at hx
    rcases hx with hx | hx
    · exact inv.result_sub x hx
    · exact hx ▸ hq_mem_keys
  -- queue_sub
  · intro x hx
    rw [List.mem_append] at hx
    rcases hx with hx | hx
    · exact inv.queue_sub x (List.mem_cons_of_mem q hx)
    · exact (mem_dependents.mp (hzs_sub x hx)).1
  -- indeg_eq
  · intro n
    rw [hdec1 n]
    have hsplit : (deps R n).filter (fun m => !(result ++ [q]).contains m) =
        ((deps R n).filter (fun m => !result.contains m)).filter (fun m => m != q) := by
      rw [List.filter_filter]
      apply List.filter_congr
      intro m _
      by_cases hmr : m ∈ result <;> by_cases hmq : m = q <;>
        simp [List.elem_eq_mem, hmr, hmq]
    by_cases hn : n ∈ dependents R q
    · rw [if_pos hn]
      have hqdn : q ∈ deps R n := (mem_dependents.mp hn).2
      have hqF : q ∈ (deps R n).filter (fun m => !result.contains m) := by
        rw [List.mem_filter]
        exact ⟨hqdn, by simp [List.elem_eq_mem, hq_notin_result]⟩
      rw [inv.indeg_eq n, hsplit,
        ← List.Nodup.erase_eq_filter (hfilter_nodup n),
        List.length_erase_of_mem hqF]
    · rw [if_neg hn]
      have hqdn : q ∉ deps R n := by
        intro hqd
        by_cases hnk : n ∈ regOrder R
        · exact hn (mem_dependents.mpr ⟨hnk, hqd⟩)
        · have : deps R n = [] := by
            unfold deps
            cases hl : List.lookup n R with
            | none => rfl
            | some v => exact absurd (lookup_some_mem hl) hnk
          rw [this] at hqd
          simp at hqd
      rw [inv.indeg_eq n]
      congr 1
      apply List.filter_congr
      intro m hm
      have hmq : m ≠ q := fun h => hqdn (h ▸ hm)
      by_cases hmr : m ∈ result <;> simp [List.elem_eq_mem, hmr, hmq]
  -- queue_done
  · intro n hn m hm
    rw [List.mem_append] at hn
    rw [List.mem_append, List.mem_singleton]
    rcases hn with hn | hn
    · exact Or.inl (inv.queue_done n (List.mem_cons_of_mem q hn) m hm)
    · -- n is a freshly enqueued zero: its old in-degree was exactly 1, the q edge
      rw [hdec2, List.mem_filter] at hn
      obtain ⟨hnds, hz⟩ := hn
      rw [decide_eq_true_eq] at hz
      have hqdn : q ∈ deps R n := (mem_dependents.mp hnds).2
      have hqF : q ∈ (deps R n).filter (fun m => !result.contains m) := by
        rw [List.mem_filter]
        exact ⟨hqdn, by simp [List.elem_eq_mem, hq_notin_result]⟩
      have hlen1 : ((deps R n).filter (fun m => !result.contains m)).length = 1 := by
        have hge : 0 < ((deps R n).filter (fun m => !result.contains m)).length :=
          List.length_pos_of_mem hqF
        have := inv.indeg_eq n
        omega
      obtain ⟨a, ha⟩ := List.length_eq_one.mp hlen1
      have haq : a = q := by
        rw [ha, List.mem_singleton] at hqF
        exact hqF.symm
      by_cases hmr : m ∈ result
      · exact Or.inl hmr
      · right
        have : m ∈ (deps R n).filter (fun m => !result.contains m) := by
          rw [List.mem_filter]
          exact ⟨hm, by simp [List.elem_eq_mem, hmr]⟩
        rw [ha, haq, List.mem_singleton] at this
        exact this
  -- res_order
  · intro n hn m hm
    rw [List.mem_append, List.mem_singleton] at hn
    rcases hn with hn | hn
    · exact before_append (inv.res_order n hn m hm)
    · subst hn
      exact before_append_last (hq_done m hm)
  -- discovered
  · intro n hn hall
    by_cases hcase : ∀ m ∈ deps R n, m ∈ result
    · rcases inv.discovered n hn hcase with hr | hq'
      · exact Or.inl (List.mem_append_left _ hr)
      · rcases List.mem_cons.mp hq' with hq'' | hq''
        · exact Or.inl (by rw [hq'']; exact List.mem_append_right _ (List.mem_singleton_self q))
        · exact Or.inr (List.mem_append_left _ hq'')
    · push_neg at hcase
      obtain ⟨m0, hm0, hm0r⟩ := hcase
      have hm0q : m0 = q := by
        have := hall m0 hm0
        rw [List.mem_append, List.mem_singleton] at this
        tauto
      rw [hm0q] at hm0 hm0r
      have hnds : n ∈ dependents R q := mem_dependents.mpr ⟨hn, hm0⟩
      -- all not-yet-emitted dependencies of n equal q, so its in-degree is 1
      have hallq : ∀ x ∈ (deps R n).filter (fun m => !result.contains m), x = q := by
        intro x hx
        rw [List.mem_filter] at hx
        have hxd := hx.1
        have hxr : x ∉ result := by
          have := hx.2
          simp [List.elem_eq_mem] at this
          exact this
        have := hall x hxd
        rw [List.mem_append, List.mem_singleton] at this
        tauto
      have hqF : q ∈ (deps R n).filter (fun m => !result.contains m) := by
        rw [List.mem_filter]
        exact ⟨hm0, by simp [List.elem_eq_mem, hm0r]⟩
      have hsub : (deps R n).filter (fun m => !result.contains m) ⊆ [q] := by
        intro x hx
        rw [List.mem_singleton]
        exact hallq x hx
      have hle := List.Subperm.length_le (List.subperm_of_subset (hfilter_nodup n) hsub)
      have hge := List.length_pos_of_mem hqF
      have hlen1 : ((deps R n).filter (fun m => !result.contains m)).length = 1 := by
        rw [List.length_singleton] at hle
        omega
      right
      rw [List.mem_append, hdec2, List.mem_filter]
      right
      refine ⟨hnds, ?_⟩
      rw [decide_eq_true_eq, inv.indeg_eq n, hlen1]



theorem kahnRun_spec (R : Registry) (hK : (regOrder R).Nodup) :
    ∀ (fuel : Nat) (indeg : String → Nat) (queue result : List String),
    KahnInv R indeg queue result →
    ∃ indeg2 queue2, KahnInv R indeg2 queue2 (kahnRun R fuel indeg queue result) ∧
      (queue2 = [] ∨ (kahnRun R fuel indeg queue result).length = result.length + fuel) := by
  intro fuel
  induction fuel with
  | zero =>
      intro indeg queue result inv
      exact ⟨indeg, queue, by rw [kahnRun]; exact inv, Or.inr (by rw [kahnRun]; omega)⟩
  | succ fuel ih =>
      intro indeg queue result inv
      match queue with
      | [] =>
          refine ⟨indeg, [], ?_, Or.inl rfl⟩
          rw [kahnRun_queue_nil]
          exact inv
      | q :: rest =>
          have step := kahnStep R hK indeg q rest result inv
          obtain ⟨i2, q2, hinv, hor⟩ := ih _ _ _ step
          refine ⟨i2, q2, by rw [kahnRun]; exact hinv, ?_⟩
          rcases hor with h | h
          · exact Or.inl h
          · right
            rw [kahnRun, h]
            simp
            omega

theorem kahnRun_final_complete (R : Registry) (hK : (regOrder R).Nodup)
    (hacyc : ∀ x, ¬ Relation.TransGen (dependsOn R) x x) :
    ∃ res, kahnRun R (regOrder R).length (initialInDegree R) (initialQueue R) [] = res ∧
      res.Nodup ∧ (∀ x ∈ res, x ∈ regOrder R) ∧ (∀ x ∈ regOrder R, x ∈ res) ∧
      (∀ n ∈ res, ∀ m ∈ deps R n, before res m n) := by
  obtain ⟨i2, q2, hinv, hor⟩ :=
    kahnRun_spec R hK (regOrder R).length (initialInDegree R) (initialQueue R) []
      (kahnInv_init R hK)
  set res := kahnRun R (regOrder R).length (initialInDegree R) (initialQueue R) [] with hres
  refine ⟨res, rfl, hinv.result_nodup, hinv.result_sub, ?_, hinv.res_order⟩
  rcases hor with hq2 | hlen
  · -- the queue drained; any leftover set would contain a cycle
    subst hq2
    by_contra hnc
    push_neg at hnc
    obtain ⟨x0, hx0k, hx0r⟩ := hnc
    classical
    set S : Finset String := (regOrder R).toFinset.filter (fun x => x ∉ res) with hS
    have hx0S : x0 ∈ S := by
      rw [hS, Finset.mem_filter, List.mem_toFinset]
      exact ⟨hx0k, hx0r⟩
    have hstep : ∀ n ∈ S, ∃ m, m ∈ S ∧ dependsOn R m n := by
      intro n hn
      rw [hS, Finset.mem_filter, List.mem_toFinset] at hn
      obtain ⟨hnk, hnr⟩ := hn
      have hnotall : ¬ (∀ m ∈ deps R n, m ∈ res) := by
        intro hall
        rcases hinv.discovered n hnk hall with h | h
        · exact hnr h
        · simp at h
      push_neg at hnotall
      obtain ⟨m, hmd, hmr⟩ := hnotall
      refine ⟨m, ?_, hmd⟩
      rw [hS, Finset.mem_filter, List.mem_toFinset]
      exact ⟨deps_subset_regOrder R n hmd, hmr⟩
    -- a finite nonempty set where everything has a predecessor contradicts acyclicity
    have htrans : IsTrans {x // x ∈ S} (fun a b => Relation.TransGen (dependsOn R) a.1 b.1) :=
      ⟨fun _ _ _ hab hbc => hab.trans hbc⟩
    have hirrefl : IsIrrefl {x // x ∈ S} (fun a b => Relation.TransGen (dependsOn R) a.1 b.1) :=
      ⟨fun a h => hacyc a.1 h⟩
    have hwf := @Finite.wellFounded_of_trans_of_irrefl {x // x ∈ S} _
      (fun a b => Relation.TransGen (dependsOn R) a.1 b.1) htrans hirrefl
    obtain ⟨a, _, hmin⟩ := hwf.has_min Set.univ ⟨⟨x0, hx0S⟩, Set.mem_univ _⟩
    obtain ⟨m, hmS, hedge⟩ := hstep a.1 a.2
    exact hmin ⟨m, hmS⟩ (Set.mem_univ _) (Relation.TransGen.single hedge)
  · -- the fuel ran out only after emitting every registered name
    intro x hx
    have hsub := List.subperm_of_subset hinv.result_nodup hinv.result_sub
    have hperm := List.Subperm.perm_of_length_le hsub (by omega)
    exact hperm.mem_iff.mpr hx

/-- C1: in an acyclic registry, every dependency `M` of a registered name `N`
appears strictly before `N` in `sorted_types()`. -/
theorem sorted_types_topological (R : Registry)
    (hK : (regOrder R).Nodup)
    (hacyc : ∀ x, ¬ Relation.TransGen (dependsOn R) x x)
    (N : String) (hN : N ∈ regOrder R)
    (M : String) (hM : M ∈ deps R N) :
    before (sortedTypes R) M N := by
  obtain ⟨res, hres, hnodup, hsub, hcomp, horder⟩ := kahnRun_final_complete R hK hacyc
  have hlen : ¬ res.length < (regOrder R).length := by
    have h1 := List.Subperm.length_le (List.subperm_of_subset hK hcomp)
    omega
  have hsorted : sortedTypes R = res := by
    simp only [sortedTypes, hres, if_neg hlen]
  rw [hsorted]
  exact horder N (hcomp N hN) M hM



theorem acyclic_of_rank (R : Registry) (rank : String → Nat)
    (h : ∀ b ∈ regOrder R, ∀ a ∈ deps R b, rank a < rank b) :
    ∀ x, ¬ Relation.TransGen (dependsOn R) x x := by
  have hedge : ∀ a b, dependsOn R a b → rank a < rank b := fun a b hab =>
    h b (deps_nonempty_mem hab) a hab
  have hmono : ∀ {a b}, Relation.TransGen (dependsOn R) a b → rank a < rank b := by
    intro a b htg
    induction htg with
    | single h1 => exact hedge _ _ h1
    | tail _ h2 ih => exact lt_trans ih (hedge _ _ h2)
  exact fun x hx => absurd (hmono hx) (lt_irrefl _)

/-- Witness for C1 at a concrete acyclic registry: `User` refers to `UserId`
(registered after it), and `UserId` is sorted strictly before `User`. -/
theorem sorted_types_topological_witness :
    ((regOrder registryC1).Nodup ∧
      (∀ x, ¬ Relation.TransGen (dependsOn registryC1) x x) ∧
      "User" ∈ regOrder registryC1 ∧ "UserId" ∈ deps registryC1 "User") ∧
    before (sortedTypes registryC1) "UserId" "User" := by
  have hacyc := acyclic_of_rank registryC1 (fun n => if n = "UserId" then 0 else 1) (by decide)
  refine ⟨⟨by decide, hacyc, by decide, by decide⟩, ?_⟩
  exact sorted_types_topological registryC1 (by decide) hacyc "User" (by decide) "UserId" (by decide)

end Ferrotype
